import Mathlib

/-!
Shallow embedding of the Voice-to-3D-Face-Animation backend core
(`src/backend/phoneme_mapper.py` and `src/backend/audio_processor.py`).

Timing arithmetic of the text pipeline is embedded over `ℚ` (the Python
code uses IEEE floats; the spec states its formulas in exact arithmetic,
and all constants involved are exactly representable rationals).  The
audio-analysis pipeline needs square roots (RMS), so sample buffers are
embedded as `List ℝ` there.
-/

namespace VoiceFace

/-- The five blendshape channels of one viseme entry (`VISEME_MAP` values). -/
structure VisemeWeights where
  jawOpen : ℚ
  mouthClose : ℚ
  mouthPucker : ℚ
  mouthSmile : ℚ
  mouthFunnel : ℚ
deriving DecidableEq, Repr

/-- The module-level `VISEME_MAP` dictionary of `phoneme_mapper.py`:
phoneme symbol → blendshape weights, `none` for symbols absent from the map. -/
def visemeMap : String → Option VisemeWeights
  | "sil" => some ⟨0, 1, 0, 0, 0⟩
  | "AA" => some ⟨7/10, 0, 0, 0, 0⟩
  | "AE" => some ⟨1/2, 0, 0, 2/5, 0⟩
  | "AH" => some ⟨2/5, 0, 0, 0, 0⟩
  | "AO" => some ⟨3/5, 0, 3/10, 0, 1/5⟩
  | "EH" => some ⟨2/5, 0, 0, 3/10, 0⟩
  | "ER" => some ⟨3/10, 0, 1/5, 0, 0⟩
  | "IH" => some ⟨3/10, 0, 0, 1/2, 0⟩
  | "IY" => some ⟨1/5, 0, 0, 7/10, 0⟩
  | "UH" => some ⟨3/10, 0, 3/10, 0, 0⟩
  | "UW" => some ⟨3/10, 0, 7/10, 0, 2/5⟩
  | "B" => some ⟨0, 1, 0, 0, 0⟩
  | "P" => some ⟨0, 1, 0, 0, 0⟩
  | "M" => some ⟨0, 1, 0, 0, 0⟩
  | "F" => some ⟨1/5, 0, 0, 0, 0⟩
  | "V" => some ⟨1/5, 0, 0, 0, 0⟩
  | "TH" => some ⟨1/5, 0, 0, 0, 0⟩
  | "S" => some ⟨1/10, 0, 0, 3/10, 0⟩
  | "Z" => some ⟨1/10, 0, 0, 3/10, 0⟩
  | "SH" => some ⟨1/5, 0, 2/5, 0, 3/10⟩
  | "CH" => some ⟨1/5, 0, 2/5, 0, 3/10⟩
  | "T" => some ⟨1/5, 0, 0, 0, 0⟩
  | "D" => some ⟨1/5, 0, 0, 0, 0⟩
  | "N" => some ⟨1/5, 0, 0, 0, 0⟩
  | "L" => some ⟨3/10, 0, 0, 1/5, 0⟩
  | "R" => some ⟨3/10, 0, 3/10, 0, 0⟩
  | "K" => some ⟨2/5, 0, 0, 0, 0⟩
  | "G" => some ⟨2/5, 0, 0, 0, 0⟩
  | "W" => some ⟨3/10, 0, 3/5, 0, 2/5⟩
  | "Y" => some ⟨3/10, 0, 0, 1/2, 0⟩
  | _ => none

/-- The `sil` entry of the viseme table (used as the default fallback). -/
def silWeights : VisemeWeights := ⟨0, 1, 0, 0, 0⟩

/-- `PhonemeMapper.phoneme_to_viseme`: look a symbol up in the table,
falling back to the `sil` entry when the symbol is absent. -/
def phonemeToViseme (p : String) : VisemeWeights :=
  (visemeMap p).getD silWeights

/-- Single-letter grapheme rules of `PhonemeMapper._word_to_phonemes`
(lines 100-112): the five vowel rules, the self-mapping consonant set
`BPMFVSZTDNLRKGWY`, and `none` for every other character. -/
def charPhoneme (c : Char) : Option String :=
  if c = 'A' then some "AE"
  else if c = 'E' then some "EH"
  else if c = 'I' then some "IH"
  else if c = 'O' then some "AO"
  else if c = 'U' then some "AH"
  else if c ∈ ['B', 'P', 'M', 'F', 'V', 'S', 'Z', 'T', 'D', 'N', 'L', 'R', 'K', 'G', 'W', 'Y']
    then some (String.mk [c])
  else none

/-- The scanning loop of `PhonemeMapper._word_to_phonemes` (lines 82-114):
at each position first try the digraphs `TH`, `SH`, `CH` (a digraph is only
tested when at least two characters remain), consuming two characters on a
match; otherwise apply the single-letter rules to one character, skipping
characters with no rule. -/
def g2pGo : List Char → List String
  | [] => []
  | c :: rest =>
    match rest with
    | c2 :: rest2 =>
      if c = 'T' ∧ c2 = 'H' then "TH" :: g2pGo rest2
      else if c = 'S' ∧ c2 = 'H' then "SH" :: g2pGo rest2
      else if c = 'C' ∧ c2 = 'H' then "CH" :: g2pGo rest2
      else
        match charPhoneme c with
        | some p => p :: g2pGo (c2 :: rest2)
        | none => g2pGo (c2 :: rest2)
    | [] =>
      match charPhoneme c with
      | some p => [p]
      | none => []

/-- `PhonemeMapper._word_to_phonemes`: upper-case the word, then scan. -/
def wordToPhonemes (word : List Char) : List String :=
  g2pGo (word.map Char.toUpper)

/-- `text.upper().split()` of `PhonemeMapper.text_to_phonemes` (line 60):
upper-case, split on whitespace runs, and drop empty pieces (Python's
argument-less `str.split`). -/
def splitWords (text : String) : List (List Char) :=
  ((text.data.map Char.toUpper).splitOnP (fun c => c.isWhitespace)).filter (· ≠ [])

/-- A `PhonemeEvent` of the spec: `(symbol, start_time, duration)`,
exactly the tuples built by `PhonemeMapper.text_to_phonemes`. -/
abbrev PhonemeEvent := String × ℚ × ℚ

/-- Inner loop of `PhonemeMapper.text_to_phonemes` (lines 66-69): emit one
event of duration `0.08` per phoneme of a word, advancing the running time
offset.  Returns the events and the updated offset. -/
def wordEvents : List String → ℚ → List PhonemeEvent × ℚ
  | [], t => ([], t)
  | p :: rest, t =>
    let x := wordEvents rest (t + 2/25)
    ((p, t, 2/25) :: x.1, x.2)

/-- Outer loop of `PhonemeMapper.text_to_phonemes` (lines 64-72): for each
word emit its phoneme events, then a `sil` event of duration `0.1`, and
advance the offset past the pause. -/
def wordsEvents : List (List Char) → ℚ → List PhonemeEvent
  | [], _ => []
  | w :: ws, t =>
    let x := wordEvents (wordToPhonemes w) t
    x.1 ++ ("sil", x.2, 1/10) :: wordsEvents ws (x.2 + 1/10)

/-- `PhonemeMapper.text_to_phonemes`: the timeline of a text. -/
def textToPhonemes (text : String) : List PhonemeEvent :=
  wordsEvents (splitWords text) 0

/-- One output frame of `PhonemeMapper.generate_animation_sequence`:
the dictionary `{frame, time, phoneme, blendshapes}` built at lines 155-160. -/
structure AnimFrame where
  frame : ℕ
  time : ℚ
  phoneme : String
  blendshapes : VisemeWeights
deriving DecidableEq, Repr

/-- Python `int()` applied to a rational value: truncation toward zero
(floor for nonnegative values, negated floor of the negation otherwise). -/
def pyInt (q : ℚ) : ℤ :=
  if 0 ≤ q then ⌊q⌋ else -⌊-q⌋

/-- The search loop at lines 145-149 of `generate_animation_sequence`:
`active_phoneme` starts as `'sil'` and the scan stops at the first event
with `start_time <= current_time < start_time + duration`. -/
def activeSymbolAt (t : ℚ) : List PhonemeEvent → String
  | [] => "sil"
  | e :: rest => if e.2.1 ≤ t ∧ t < e.2.1 + e.2.2 then e.1 else activeSymbolAt t rest

/-- Total duration at line 137: the last event's start plus its duration,
`0` for an empty timeline. -/
def totalDuration (phonemes : List PhonemeEvent) : ℚ :=
  match phonemes.getLast? with
  | some e => e.2.1 + e.2.2
  | none => 0

/-- The frame count of lines 138-139:
`int(total_duration / frame_duration) + 1` with `frame_duration = 1/fps`
(clamped at `0` when the Python value would be negative, in which case the
`range` loop runs zero times). -/
def numFrames (phonemes : List PhonemeEvent) (fps : ℕ) : ℕ :=
  (pyInt (totalDuration phonemes / (1 / (fps : ℚ))) + 1).toNat

/-- The frame-sampling part of `PhonemeMapper.generate_animation_sequence`
(lines 134-162), as a function of the already-built timeline: each frame
`idx` has timestamp `idx * (1/fps)` and carries the first event active at
that time, defaulting to `sil`, together with its viseme weights. -/
def sampleTimeline (phonemes : List PhonemeEvent) (fps : ℕ) : List AnimFrame :=
  (List.range (numFrames phonemes fps)).map fun (idx : ℕ) =>
    let t : ℚ := (idx : ℚ) * (1 / (fps : ℚ))
    let active : String := activeSymbolAt t phonemes
    ⟨idx, t, active, phonemeToViseme active⟩

/-- `PhonemeMapper.generate_animation_sequence`: build the text timeline,
then sample it at `fps`. -/
def generateAnimationSequence (text : String) (fps : ℕ) : List AnimFrame :=
  sampleTimeline (textToPhonemes text) fps

/-- `AudioProcessor.calculate_rms` (also the inline energy computation of
`detect_voice_activity` and `analyze_audio_features`):
`sqrt(mean(x ** 2))`.  The Python mean of an empty buffer is NaN; here the
convention `0 / 0 = 0` makes the empty-buffer RMS `0` instead, which agrees
with Python on every branch the embedded code takes (`NaN > 0`,
`NaN > threshold` and `NaN < c` are all false, as are `0 > 0`,
`0 > threshold` for the nonnegative thresholds used, and `0 < c` is only
taken where Python never reaches the comparison). -/
noncomputable def calculateRms (xs : List ℝ) : ℝ :=
  Real.sqrt ((xs.map fun x => x ^ 2).sum / xs.length)

/-- `np.clip(x, -1.0, 1.0)` applied to one sample. -/
def clip (x : ℝ) : ℝ := max (-1) (min 1 x)

/-- `AudioProcessor.normalize_audio` (lines 104-122): if the RMS is
positive, scale every sample by `target_level / rms` and clip to `[-1, 1]`;
otherwise return the buffer unchanged. -/
noncomputable def normalizeAudio (xs : List ℝ) (targetLevel : ℝ := 3/10) : List ℝ :=
  let currentRms := calculateRms xs
  if 0 < currentRms then xs.map fun x => clip (x * (targetLevel / currentRms))
  else xs

/-- Value of one character in the base64 alphabet, `none` for characters
outside it (the table `table_a2b_base64` used by Python's
`base64.b64decode`). -/
def b64Digit (c : Char) : Option ℕ :=
  if 'A' ≤ c ∧ c ≤ 'Z' then some (c.toNat - 65)
  else if 'a' ≤ c ∧ c ≤ 'z' then some (c.toNat - 97 + 26)
  else if '0' ≤ c ∧ c ≤ '9' then some (c.toNat - 48 + 52)
  else if c = '+' then some 62
  else if c = '/' then some 63
  else none

/-- CPython's `binascii.a2b_base64` in non-strict mode (what
`base64.b64decode` calls): characters outside the alphabet are skipped; a
`'='` is counted as padding only once two data characters of the current
quadruple have been seen, and enough padding ends decoding successfully
(the rest of the input is ignored); at end of input, a dangling quadruple
of one data character or unfinished padding is an error.  State:
remaining input, position in the current quadruple (0-3), carried bits of
the previous data character, pending padding count, output accumulator. -/
def a2bBase64 : List Char → ℕ → ℕ → ℕ → List ℕ → Option (List ℕ)
  | [], quadPos, _, _, acc =>
    if quadPos = 0 then some acc else none
  | c :: rest, quadPos, leftchar, pads, acc =>
    if c = '=' then
      if 2 ≤ quadPos ∧ 4 ≤ quadPos + (pads + 1) then some acc
      else a2bBase64 rest quadPos leftchar (if 2 ≤ quadPos then pads + 1 else pads) acc
    else
      match b64Digit c with
      | none => a2bBase64 rest quadPos leftchar pads acc
      | some v =>
        match quadPos with
        | 0 => a2bBase64 rest 1 v 0 acc
        | 1 => a2bBase64 rest 2 (v % 16) 0 (acc ++ [leftchar * 4 + v / 16])
        | 2 => a2bBase64 rest 3 (v % 4) 0 (acc ++ [leftchar * 16 + v / 4])
        | _ => a2bBase64 rest 0 0 0 (acc ++ [leftchar * 64 + v])

/-- `base64.b64decode` on a Python `str`: the string must be pure ASCII
(otherwise `str.encode('ascii')` fails), then the non-strict base64
decoder runs.  `none` models the raised `ValueError`/`binascii.Error`. -/
def pyB64Decode (cs : List Char) : Option (List ℕ) :=
  if cs.any (fun c => 128 ≤ c.toNat) then none
  else a2bBase64 cs 0 0 0 []

/-- Python `str.split(',')`: split at every comma, keeping empty pieces. -/
def splitOnComma : List Char → List (List Char)
  | [] => [[]]
  | c :: rest =>
    if c = ',' then [] :: splitOnComma rest
    else
      match splitOnComma rest with
      | [] => [[c]]
      | p :: ps => (c :: p) :: ps

/-- Lines 27-28 of `decode_audio_base64`: when the input contains a comma,
replace it by `audio_base64.split(',')[1]` (the piece between the first
and the second comma). -/
def stripDataUrl (cs : List Char) : List Char :=
  if ',' ∈ cs then (splitOnComma cs).getD 1 [] else cs

/-- The value of a signed 16-bit little-endian integer with byte values
`lo` and `hi` (both `< 256`), as read by `np.frombuffer(-, np.int16)`. -/
def int16val (lo hi : ℕ) : ℤ :=
  if 32768 ≤ lo + 256 * hi then (lo + 256 * hi : ℤ) - 65536 else (lo + 256 * hi : ℤ)

/-- Lines 34-37 of `decode_audio_base64`: reinterpret the byte list as
int16 little-endian samples and divide by `32768.0`. -/
noncomputable def bytesToSamples : List ℕ → List ℝ
  | lo :: hi :: rest => ((int16val lo hi : ℝ) / 32768) :: bytesToSamples rest
  | _ => []

/-- The two failure kinds of `decode_audio_base64`: `malformedBase64`
models the `binascii.Error`/`ValueError` raised by `base64.b64decode`,
`invalidByteLength` the `ValueError` raised by `np.frombuffer` when the
byte count is not a multiple of 2. -/
inductive DecodeError where
  | malformedBase64 : DecodeError
  | invalidByteLength : DecodeError
deriving DecidableEq, Repr

/-- `AudioProcessor.decode_audio_base64` (lines 17-39), with the raised
exceptions embedded as explicit `Except.error` values: strip an optional
data-URL header, base64-decode, check the byte count is even, and convert
to samples in `[-1, 1)`. -/
noncomputable def decodeAudioBase64 (s : String) : Except DecodeError (List ℝ) :=
  let payload := stripDataUrl s.data
  match pyB64Decode payload with
  | none => .error .malformedBase64
  | some bytes =>
    if bytes.length % 2 = 0 then .ok (bytesToSamples bytes)
    else .error .invalidByteLength

/-- `int(sample_rate * 0.03)` at line 175 of `analyze_audio_features`. -/
def frameSizeAF (sampleRate : ℕ) : ℕ := sampleRate * 3 / 100

/-- `int(sample_rate * 0.01)` at line 176 of `analyze_audio_features`. -/
def hopSizeAF (sampleRate : ℕ) : ℕ := sampleRate / 100

/-- `num_frames = (len(audio_data) - frame_size) // hop_size` at line 179,
Python floor division on possibly negative numerator (a negative count
makes the `range` loop empty, hence the `toNat` clamp). -/
def numFramesAF (n sampleRate : ℕ) : ℕ :=
  (((n : ℤ) - (frameSizeAF sampleRate : ℤ)).fdiv (hopSizeAF sampleRate)).toNat

/-- The energy thresholds at lines 191-198 of `analyze_audio_features`:
`< 0.01 → sil`, `< 0.05 → M`, `< 0.15 → EH`, otherwise `AA`. -/
noncomputable def classifyEnergy (energy : ℝ) : String :=
  if energy < 1/100 then "sil"
  else if energy < 1/20 then "M"
  else if energy < 3/20 then "EH"
  else "AA"

/-- One output frame of `analyze_audio_features`: the dictionary
`{frame, time, phoneme, energy, blendshapes}` built at lines 202-208. -/
structure AudioFrame where
  frame : ℕ
  time : ℚ
  phoneme : String
  energy : ℝ
  blendshapes : VisemeWeights

/-- `PhonemeMapper.analyze_audio_features` (lines 164-210): slice the
buffer into `num_frames` hop-aligned windows of `frame_size` samples,
compute each window's RMS energy, classify it by the fixed thresholds, and
emit a frame with timestamp `i * hop_size / sample_rate`. -/
noncomputable def analyzeAudioFeatures (xs : List ℝ) (sampleRate : ℕ) : List AudioFrame :=
  let fs := frameSizeAF sampleRate
  let hop := hopSizeAF sampleRate
  (List.range (numFramesAF xs.length sampleRate)).map fun (i : ℕ) =>
    let frameAudio := (xs.drop (i * hop)).take fs
    let energy := calculateRms frameAudio
    let phoneme := classifyEnergy energy
    ⟨i, ((i * hop : ℕ) : ℚ) / (sampleRate : ℚ), phoneme, energy, phonemeToViseme phoneme⟩

/-- `int(self.sample_rate * 0.02)` at line 72 of `detect_voice_activity`. -/
def frameSizeVad (sampleRate : ℕ) : ℕ := sampleRate * 2 / 100

/-- `hop_size = frame_size // 2` at line 73. -/
def hopSizeVad (sampleRate : ℕ) : ℕ := frameSizeVad sampleRate / 2

/-- The number of iterations of
`range(0, len(audio_data) - frame_size, hop_size)` at line 76
(`⌈(n - fs) / hop⌉`, `0` when `n ≤ fs`; `hop = 0` would make the Python
loop diverge, so this count is only meaningful for `hop > 0`). -/
def vadCount (n fs hop : ℕ) : ℕ := (n - fs + hop - 1) / hop

/-- The per-frame activity booleans of lines 75-81: frame `k` starts at
sample `k * hop` and is active when its RMS energy exceeds the threshold. -/
noncomputable def vadIsVoice (xs : List ℝ) (threshold : ℝ) (fs hop : ℕ) : List Bool :=
  (List.range (vadCount xs.length fs hop)).map fun (k : ℕ) =>
    decide (threshold < calculateRms ((xs.drop (k * hop)).take fs))

/-- The region-scan of lines 83-96 over the activity booleans: an
inactive→active edge at frame `i` opens a region at sample `i * hop`, an
active→inactive edge closes it at `i * hop`, and a region still open at
the end of the scan is closed at `n` (the buffer length). -/
def findRegions (n hop : ℕ) : List Bool → ℕ → Option ℕ → List (ℕ × ℕ)
  | [], _, none => []
  | [], _, some s => [(s, n)]
  | b :: bs, i, none =>
    if b then findRegions n hop bs (i + 1) (some (i * hop))
    else findRegions n hop bs (i + 1) none
  | b :: bs, i, some s =>
    if b then findRegions n hop bs (i + 1) (some s)
    else (s, i * hop) :: findRegions n hop bs (i + 1) none

/-- `AudioProcessor.detect_voice_activity` (lines 61-98). -/
noncomputable def detectVoiceActivity (xs : List ℝ) (threshold : ℝ) (sampleRate : ℕ) :
    List (ℕ × ℕ) :=
  let fs := frameSizeVad sampleRate
  let hop := hopSizeVad sampleRate
  findRegions xs.length hop (vadIsVoice xs threshold fs hop) 0 none

lemma wordsEvents_ne_nil (w : List Char) (ws : List (List Char)) (t : ℚ) :
    wordsEvents (w :: ws) t ≠ [] := by
  simp [wordsEvents]

/-- C2 (counterexample): the input `"C"` has no mappable character
(`charPhoneme 'C' = none`, and the word yields no phoneme), yet
`text_to_phonemes` returns a timeline holding the inter-word `sil` event
appended after every word — not the empty timeline the claim requires. -/
theorem c2_counterexample :
    charPhoneme 'C' = none ∧ wordToPhonemes "C".data = [] ∧
      textToPhonemes "C" = [("sil", 0, 1/10)] ∧ textToPhonemes "C" ≠ [] := by
  refine ⟨by decide, by decide, ?_, ?_⟩ <;>
    norm_num [textToPhonemes, splitWords, wordsEvents, wordEvents, wordToPhonemes, g2pGo,
      charPhoneme]

/-- C2 (amended): the timeline returned by `text_to_phonemes` is empty
exactly when the text splits into zero whitespace-separated words; every
word — mappable or not — contributes at least its trailing `sil` event. -/
theorem c2_empty_iff_no_words (text : String) :
    textToPhonemes text = [] ↔ splitWords text = [] := by
  unfold textToPhonemes
  cases h : splitWords text with
  | nil => simp [wordsEvents]
  | cons w ws => simpa using wordsEvents_ne_nil w ws 0

/-- C2 (witness): the amended equivalence at `text = "C"`. -/
theorem c2_witness :
    textToPhonemes "C" = [] ↔ splitWords "C" = [] :=
  c2_empty_iff_no_words "C"

/-- C1 (counterexample): on empty text the timeline has zero events, yet
`generate_animation_sequence` does not fail — it returns a one-frame
animation sequence (frame `0`, time `0`, phoneme `sil`).  The code has no
failure path at all (`total_duration = 0` is handled by the
`if phonemes else 0` branch at line 137). -/
theorem c1_counterexample :
    textToPhonemes "" = [] ∧
      generateAnimationSequence "" 30 = [⟨0, 0, "sil", silWeights⟩] := by
  constructor
  · decide
  · norm_num [generateAnimationSequence, sampleTimeline, numFrames, totalDuration, pyInt,
      textToPhonemes, splitWords, wordsEvents, activeSymbolAt, phonemeToViseme, visemeMap,
      silWeights, List.range_succ, List.range_zero]

/-- C1 (amended): for every timeline with zero events (in particular from
empty or whitespace-only text) and positive fps, the frame sampler returns
the single-frame sequence `[(0, 0.0, sil)]` instead of failing. -/
theorem c1_empty_timeline_single_sil_frame (text : String) (fps : ℕ)
    (hfps : 0 < fps) (h : textToPhonemes text = []) :
    generateAnimationSequence text fps = [⟨0, 0, "sil", silWeights⟩] := by
  unfold generateAnimationSequence
  rw [h]
  norm_num [sampleTimeline, numFrames, totalDuration, pyInt, activeSymbolAt,
    phonemeToViseme, visemeMap, silWeights, List.range_succ, List.range_zero]

/-- C1 (witness): the amended statement at `text = ""`, `fps = 30`. -/
theorem c1_witness :
    0 < 30 ∧ textToPhonemes "" = [] ∧
      generateAnimationSequence "" 30 = [⟨0, 0, "sil", silWeights⟩] :=
  ⟨by norm_num, by decide,
    c1_empty_timeline_single_sil_frame "" 30 (by norm_num) (by decide)⟩

lemma splitOnComma_no_comma (cs : List Char) (h : ',' ∉ cs) :
    splitOnComma cs = [cs] := by
  induction cs with
  | nil => rfl
  | cons c rest ih =>
    have hc : c ≠ ',' := fun hc => h (by simp [hc])
    have hrest : ',' ∉ rest := fun hm => h (List.mem_cons_of_mem _ hm)
    rw [splitOnComma, if_neg hc, ih hrest]

lemma splitOnComma_append_comma (pre rest : List Char) (h : ',' ∉ pre) :
    splitOnComma (pre ++ ',' :: rest) = pre :: splitOnComma rest := by
  induction pre with
  | nil =>
    rw [List.nil_append, splitOnComma, if_pos rfl]
  | cons c cs ih =>
    have hc : c ≠ ',' := fun hc => h (by simp [hc])
    have hcs : ',' ∉ cs := fun hm => h (List.mem_cons_of_mem _ hm)
    rw [List.cons_append, splitOnComma, if_neg hc, ih hcs]

/-- C5 (counterexample): for an input with two commas, the payload that
gets base64-decoded is the piece between the first and second comma
(`split(',')[1]`), not the whole suffix after the first comma.  On
`"x,AAAA,AAAA"` the decoded payload is `"AAAA"` (3 bytes, so decoding
fails with an odd-byte-count error), while decoding the full suffix
`"AAAA,AAAA"` would have succeeded with 6 bytes. -/
theorem c5_counterexample :
    stripDataUrl ("x,AAAA,AAAA").data = "AAAA".data ∧
      "AAAA".data ≠ ("AAAA,AAAA").data ∧
      decodeAudioBase64 "x,AAAA,AAAA" = .error .invalidByteLength ∧
      pyB64Decode ("AAAA,AAAA").data = some [0, 0, 0, 0, 0, 0] := by
  refine ⟨by decide, by decide, ?_, by decide⟩
  have h1 : stripDataUrl ("x,AAAA,AAAA").data = "AAAA".data := by decide
  have h2 : pyB64Decode ("AAAA").data = some [0, 0, 0] := by decide
  simp [decodeAudioBase64, h1, h2]

/-- C5 (amended): when the input contains a comma, the decoded payload is
`split(',')[1]`: the segment strictly between the first and second commas,
which equals the suffix after the first comma only when that suffix holds
no further comma. -/
theorem c5_payload_between_first_and_second_comma (pre mid post : List Char)
    (hpre : ',' ∉ pre) (hmid : ',' ∉ mid) :
    stripDataUrl (pre ++ ',' :: (mid ++ ',' :: post)) = mid ∧
      stripDataUrl (pre ++ ',' :: mid) = mid := by
  constructor
  · have hmem : ',' ∈ pre ++ ',' :: (mid ++ ',' :: post) := by simp
    rw [stripDataUrl, if_pos hmem, splitOnComma_append_comma pre _ hpre,
      splitOnComma_append_comma mid post hmid]
    rfl
  · have hmem : ',' ∈ pre ++ ',' :: mid := by simp
    rw [stripDataUrl, if_pos hmem, splitOnComma_append_comma pre _ hpre,
      splitOnComma_no_comma mid hmid]
    rfl

/-- C5 (witness): the amended statement at `pre = "x"`, `mid = "A"`,
`post = "B"`. -/
theorem c5_witness :
    (',' ∉ ['x']) ∧ stripDataUrl (['x'] ++ ',' :: (['A'] ++ ',' :: ['B'])) = ['A'] :=
  ⟨by decide,
    (c5_payload_between_first_and_second_comma ['x'] ['A'] ['B'] (by decide) (by decide)).1⟩

/-- C7 (confirmed): the word scanner tests the digraphs `TH`, `SH`, `CH`
before the single-character rules (each digraph equation holds for every
remainder of the word), skips any character with no rule that does not
start a digraph, and on the spec's examples gives
`wordToPhonemes "CAT" = ["AE", "T"]` and
`wordToPhonemes "THIS" = ["TH", "IH", "S"]`. -/
theorem c7_g2p_scan :
    wordToPhonemes "CAT".data = ["AE", "T"] ∧
      wordToPhonemes "THIS".data = ["TH", "IH", "S"] ∧
      (∀ rest, g2pGo ('T' :: 'H' :: rest) = "TH" :: g2pGo rest) ∧
      (∀ rest, g2pGo ('S' :: 'H' :: rest) = "SH" :: g2pGo rest) ∧
      (∀ rest, g2pGo ('C' :: 'H' :: rest) = "CH" :: g2pGo rest) ∧
      (∀ (c : Char) (rest : List Char), charPhoneme c = none →
        (c ∉ (['T', 'S', 'C'] : List Char) ∨ rest.head? ≠ some 'H') →
        g2pGo (c :: rest) = g2pGo rest) := by
  refine ⟨by decide, by decide, fun rest => rfl, fun rest => rfl, fun rest => rfl, ?_⟩
  intro c rest hc hdig
  cases rest with
  | nil => simp [g2pGo, hc]
  | cons c2 rest2 =>
    have h1 : ¬(c = 'T' ∧ c2 = 'H') := by
      rcases hdig with h | h
      · rintro ⟨rfl, -⟩; exact h (by decide)
      · rintro ⟨-, rfl⟩; exact h rfl
    have h2 : ¬(c = 'S' ∧ c2 = 'H') := by
      rcases hdig with h | h
      · rintro ⟨rfl, -⟩; exact h (by decide)
      · rintro ⟨-, rfl⟩; exact h rfl
    have h3 : ¬(c = 'C' ∧ c2 = 'H') := by
      rcases hdig with h | h
      · rintro ⟨rfl, -⟩; exact h (by decide)
      · rintro ⟨-, rfl⟩; exact h rfl
    rw [g2pGo, if_neg h1, if_neg h2, if_neg h3, hc]

/-- C7 (witness): the skip rule at the unmapped character `Q` followed by
`A`, and the first example. -/
theorem c7_witness :
    charPhoneme 'Q' = none ∧ g2pGo ['Q', 'A'] = g2pGo ['A'] :=
  ⟨by decide, c7_g2p_scan.2.2.2.2.2 'Q' ['A'] (by decide) (by decide)⟩

/-- Contiguity invariant: a list of events is contiguous starting at time
`t` when its first event (if any) starts at `t` and every later event
starts where its predecessor ends. -/
def contiguousFrom : ℚ → List PhonemeEvent → Prop
  | _, [] => True
  | t, e :: rest => e.2.1 = t ∧ contiguousFrom (e.2.1 + e.2.2) rest

lemma contiguousFrom_append (l : List PhonemeEvent) :
    ∀ (t u : ℚ) (tail : List PhonemeEvent), contiguousFrom t l → contiguousFrom u tail →
      (l = [] → u = t) → (∀ e, l.getLast? = some e → u = e.2.1 + e.2.2) →
      contiguousFrom t (l ++ tail) := by
  induction l with
  | nil =>
    intro t u tail _ htail hnil _
    simpa [hnil rfl] using htail
  | cons e l ih =>
    intro t u tail hl htail _ hlast
    obtain ⟨het, hrest⟩ := hl
    refine ⟨het, ih (e.2.1 + e.2.2) u tail hrest htail ?_ ?_⟩
    · intro hle
      subst hle
      exact hlast e (by simp)
    · intro f hf
      refine hlast f ?_
      rw [List.getLast?_cons, hf]
      cases l <;> simp_all

lemma wordEvents_snd (syms : List String) (t : ℚ) :
    (wordEvents syms t).2 = t + syms.length * (2/25) := by
  induction syms generalizing t with
  | nil => simp [wordEvents]
  | cons p rest ih =>
    simp only [wordEvents, ih, List.length_cons]
    push_cast
    ring

lemma wordEvents_contiguous (syms : List String) (t : ℚ) :
    contiguousFrom t (wordEvents syms t).1 := by
  induction syms generalizing t with
  | nil => simp [wordEvents, contiguousFrom]
  | cons p rest ih =>
    exact ⟨rfl, ih (t + 2/25)⟩

lemma wordEvents_getLast_end (syms : List String) (t : ℚ) (e : PhonemeEvent)
    (h : (wordEvents syms t).1.getLast? = some e) :
    (wordEvents syms t).2 = e.2.1 + e.2.2 := by
  induction syms generalizing t with
  | nil => simp [wordEvents] at h
  | cons p rest ih =>
    simp only [wordEvents, List.getLast?_cons] at h ⊢
    cases hrest : (wordEvents rest (t + 2/25)).1 with
    | nil =>
      cases rest with
      | nil =>
        simp [wordEvents] at hrest ⊢
        simp [hrest, wordEvents] at h
        simp [← h, wordEvents]
      | cons q qs => simp [wordEvents] at hrest
    | cons f fs =>
      rw [hrest] at h
      simp only [List.getLast?_cons] at h
      have := ih (t + 2/25)
      rw [hrest] at this
      exact this (by simpa [List.getLast?_cons] using h)

lemma wordEvents_duration (syms : List String) (t : ℚ) (e : PhonemeEvent)
    (h : e ∈ (wordEvents syms t).1) : e.2.2 = 2/25 := by
  induction syms generalizing t with
  | nil => simp [wordEvents] at h
  | cons p rest ih =>
    simp only [wordEvents, List.mem_cons] at h
    rcases h with rfl | h
    · rfl
    · exact ih (t + 2/25) h

lemma wordEvents_fst_nil (syms : List String) (t : ℚ)
    (h : (wordEvents syms t).1 = []) : (wordEvents syms t).2 = t := by
  cases syms with
  | nil => rfl
  | cons p rest => simp [wordEvents] at h

lemma wordsEvents_contiguous (ws : List (List Char)) (t : ℚ) :
    contiguousFrom t (wordsEvents ws t) := by
  induction ws generalizing t with
  | nil => simp [wordsEvents, contiguousFrom]
  | cons w rest ih =>
    refine contiguousFrom_append _ t ((wordEvents (wordToPhonemes w) t).2) _
      (wordEvents_contiguous _ t) ⟨rfl, ih _⟩ ?_ ?_
    · exact wordEvents_fst_nil _ t
    · exact wordEvents_getLast_end _ t

lemma wordsEvents_duration (ws : List (List Char)) (t : ℚ) (e : PhonemeEvent)
    (h : e ∈ wordsEvents ws t) : e.2.2 = 2/25 ∨ e.2.2 = 1/10 := by
  induction ws generalizing t with
  | nil => simp [wordsEvents] at h
  | cons w rest ih =>
    simp only [wordsEvents, List.mem_append, List.mem_cons] at h
    rcases h with h | rfl | h
    · exact Or.inl (wordEvents_duration _ t e h)
    · exact Or.inr rfl
    · exact ih _ h

lemma contiguousFrom_chain (l : List PhonemeEvent) :
    ∀ t, contiguousFrom t l → List.Chain' (fun e f => f.2.1 = e.2.1 + e.2.2) l := by
  induction l with
  | nil => intro t _; exact List.chain'_nil
  | cons e rest ih =>
    intro t h
    obtain ⟨-, hrest⟩ := h
    refine List.chain'_cons'.2 ⟨?_, ih _ hrest⟩
    intro f hf
    cases rest with
    | nil => simp at hf
    | cons g gs =>
      obtain rfl : g = f := by simpa using hf
      exact hrest.1

lemma contiguousFrom_mono (l : List PhonemeEvent) :
    ∀ t, contiguousFrom t l → (∀ e ∈ l, 0 ≤ e.2.2) →
      List.Pairwise (fun e f => e.2.1 ≤ f.2.1) l ∧ ∀ e ∈ l, t ≤ e.2.1 := by
  induction l with
  | nil => intro t _ _; exact ⟨List.Pairwise.nil, by simp⟩
  | cons e rest ih =>
    intro t h hd
    obtain ⟨het, hrest⟩ := h
    have hdur : 0 ≤ e.2.2 := hd e (List.mem_cons_self e rest)
    obtain ⟨hpw, hge⟩ := ih (e.2.1 + e.2.2) hrest (fun f hf => hd f (List.mem_cons_of_mem _ hf))
    refine ⟨List.pairwise_cons.2 ⟨?_, hpw⟩, ?_⟩
    · intro f hf
      have := hge f hf
      linarith
    · intro f hf
      rcases List.mem_cons.1 hf with rfl | hf
      · exact le_of_eq het.symm
      · have := hge f hf
        linarith

/-- C9 (confirmed): every timeline produced by `text_to_phonemes` is
well-formed: consecutive events are contiguous (each event starts exactly
where the previous one ends), all durations are positive, the first event
(if any) starts at `0.0`, and start times are non-decreasing. -/
theorem c9_text_timeline_well_formed (text : String) :
    List.Chain' (fun e f => f.2.1 = e.2.1 + e.2.2) (textToPhonemes text) ∧
      (∀ e ∈ textToPhonemes text, 0 < e.2.2) ∧
      (∀ e, (textToPhonemes text).head? = some e → e.2.1 = 0) ∧
      List.Pairwise (fun e f => e.2.1 ≤ f.2.1) (textToPhonemes text) := by
  have hc : contiguousFrom 0 (textToPhonemes text) := wordsEvents_contiguous _ 0
  have hdur : ∀ e ∈ textToPhonemes text, 0 < e.2.2 := by
    intro e he
    rcases wordsEvents_duration _ 0 e he with h | h <;> rw [h] <;> norm_num
  refine ⟨contiguousFrom_chain _ 0 hc, hdur, ?_, ?_⟩
  · intro e he
    cases h : textToPhonemes text with
    | nil => rw [h] at he; simp at he
    | cons f rest =>
      rw [h] at he hc
      obtain rfl : f = e := by simpa using he
      exact hc.1
  · exact (contiguousFrom_mono _ 0 hc (fun e he => le_of_lt (hdur e he))).1

/-- C9 (witness): the well-formedness conjunction at `text = "HI"`. -/
theorem c9_witness :
    List.Chain' (fun e f => f.2.1 = e.2.1 + e.2.2) (textToPhonemes "HI") ∧
      (∀ e ∈ textToPhonemes "HI", 0 < e.2.2) ∧
      (∀ e, (textToPhonemes "HI").head? = some e → e.2.1 = 0) ∧
      List.Pairwise (fun e f => e.2.1 ≤ f.2.1) (textToPhonemes "HI") :=
  c9_text_timeline_well_formed "HI"

lemma activeSymbolAt_eq_find (t : ℚ) (tl : List PhonemeEvent) :
    activeSymbolAt t tl =
      ((tl.find? fun e => decide (e.2.1 ≤ t ∧ t < e.2.1 + e.2.2)).map fun e => e.1).getD
        "sil" := by
  induction tl with
  | nil => rfl
  | cons e rest ih =>
    by_cases h : e.2.1 ≤ t ∧ t < e.2.1 + e.2.2
    · rw [activeSymbolAt, if_pos h, List.find?_cons_of_pos _ (by simpa using h)]
      rfl
    · rw [activeSymbolAt, if_neg h, List.find?_cons_of_neg _ (by simpa using h), ih]

lemma numFrames_eq_floor (tl : List PhonemeEvent) (fps : ℕ) (hfps : 0 < fps)
    (hD : 0 ≤ totalDuration tl) :
    numFrames tl fps = (⌊totalDuration tl * (fps : ℚ)⌋).toNat + 1 := by
  have hfq : (0 : ℚ) < (fps : ℚ) := by exact_mod_cast hfps
  have hdiv : totalDuration tl / (1 / (fps : ℚ)) = totalDuration tl * (fps : ℚ) := by
    rw [one_div, div_inv_eq_mul]
  have hq : 0 ≤ totalDuration tl * (fps : ℚ) := mul_nonneg hD (le_of_lt hfq)
  have hfloor : (0 : ℤ) ≤ ⌊totalDuration tl * (fps : ℚ)⌋ := Int.floor_nonneg.2 hq
  rw [numFrames, hdiv, pyInt, if_pos hq]
  omega

/-- C6 (counterexample): for the non-empty timeline `[("AA", 1, 1)]` at
`fps = 1`, frame 0 (time `0`) is covered by no event, so its symbol is the
`sil` default and not the first event's symbol `"AA"` — the claim's final
clause fails for timelines whose first event does not cover time `0`. -/
theorem c6_counterexample :
    ([("AA", 1, 1)] : List PhonemeEvent) ≠ [] ∧
      ((sampleTimeline [("AA", 1, 1)] 1).head?.map fun fr => fr.phoneme) = some "sil" ∧
      "sil" ≠ "AA" := by
  refine ⟨by simp, ?_, by decide⟩
  norm_num [sampleTimeline, numFrames, totalDuration, pyInt, activeSymbolAt,
    List.range_succ, List.range_zero, show Int.toNat 3 = 3 from rfl]

/-- C6 (amended): for every non-empty timeline with nonnegative total
duration and positive fps, the sampler emits `floor(total_duration*fps)+1`
frames; frame `i` has index `i` and timestamp `i/fps`, and carries the
symbol of the first event (in timeline order) whose interval contains the
timestamp, `sil` when none does; frame 0 carries the first event's symbol
provided the first event covers time 0 (it starts at `0.0` with positive
duration, as every `text_to_phonemes` timeline does). -/
theorem c6_sampler_frames (tl : List PhonemeEvent) (fps : ℕ)
    (hne : tl ≠ []) (hfps : 0 < fps) (hD : 0 ≤ totalDuration tl) :
    (sampleTimeline tl fps).length = (⌊totalDuration tl * (fps : ℚ)⌋).toNat + 1 ∧
      (∀ i (h : i < (sampleTimeline tl fps).length),
        ((sampleTimeline tl fps).get ⟨i, h⟩).frame = i ∧
        ((sampleTimeline tl fps).get ⟨i, h⟩).time = (i : ℚ) / (fps : ℚ) ∧
        ((sampleTimeline tl fps).get ⟨i, h⟩).phoneme =
          ((tl.find? fun e => decide (e.2.1 ≤ (i : ℚ) / (fps : ℚ) ∧
            (i : ℚ) / (fps : ℚ) < e.2.1 + e.2.2)).map fun e => e.1).getD "sil") ∧
      (∀ sym d rest, tl = (sym, 0, d) :: rest → 0 < d →
        ((sampleTimeline tl fps).head?.map fun fr => fr.phoneme) = some sym) := by
  have hlen : (sampleTimeline tl fps).length = numFrames tl fps := by
    simp [sampleTimeline]
  refine ⟨by rw [hlen, numFrames_eq_floor tl fps hfps hD], ?_, ?_⟩
  · intro i h
    have hi : i < numFrames tl fps := by rwa [hlen] at h
    have hget : (sampleTimeline tl fps).get ⟨i, h⟩ =
        ⟨i, (i : ℚ) * (1 / (fps : ℚ)), activeSymbolAt ((i : ℚ) * (1 / (fps : ℚ))) tl,
          phonemeToViseme (activeSymbolAt ((i : ℚ) * (1 / (fps : ℚ))) tl)⟩ := by
      simp [sampleTimeline, List.get_eq_getElem]
    have ht : (i : ℚ) * (1 / (fps : ℚ)) = (i : ℚ) / (fps : ℚ) := by
      rw [mul_one_div]
    rw [hget]
    refine ⟨rfl, ht, ?_⟩
    rw [ht, activeSymbolAt_eq_find]
  · intro sym d rest htl hd
    have hpos : 0 < numFrames tl fps := by
      rw [numFrames_eq_floor tl fps hfps hD]
      omega
    obtain ⟨k, hk⟩ : ∃ k, numFrames tl fps = k + 1 :=
      ⟨numFrames tl fps - 1, by omega⟩
    rw [sampleTimeline, hk, List.range_succ_eq_map]
    subst htl
    have hact : activeSymbolAt (0 : ℚ) (((sym, 0, d)) :: rest) = sym := by
      rw [activeSymbolAt, if_pos]
      exact ⟨le_refl 0, by simpa using hd⟩
    simp [hact]

/-- C6 (witness): the amended statement at the timeline of `"HI"` with
`fps = 10` (two events, total duration `0.18`, two frames). -/
theorem c6_witness :
    (textToPhonemes "HI" ≠ []) ∧ 0 < 10 ∧ (0 : ℚ) ≤ totalDuration (textToPhonemes "HI") ∧
      (sampleTimeline (textToPhonemes "HI") 10).length =
        (⌊totalDuration (textToPhonemes "HI") * (10 : ℚ)⌋).toNat + 1 := by
  have h1 : textToPhonemes "HI" ≠ [] := by
    have heq : textToPhonemes "HI" = [("IH", 0, 2/25), ("sil", 2/25, 1/10)] := by
      norm_num [textToPhonemes, splitWords, wordsEvents, wordEvents, wordToPhonemes, g2pGo,
        charPhoneme]
    rw [heq]
    exact List.cons_ne_nil _ _
  have h3 : (0 : ℚ) ≤ totalDuration (textToPhonemes "HI") := by
    norm_num [textToPhonemes, splitWords, wordsEvents, wordEvents, wordToPhonemes, g2pGo,
      charPhoneme, totalDuration]
  exact ⟨h1, by norm_num,  h3,
    (c6_sampler_frames (textToPhonemes "HI") 10 h1 (by norm_num) h3).1⟩

/-- C3 (confirmed): audio decoding is total over its embedded error type —
every input yields either a sample buffer or an explicit `DecodeError`
value — and it fails exactly when the (comma-stripped) base64 payload is
malformed or the decoded byte count is odd. -/
lemma decodeAudioBase64_eq (s : String) :
    decodeAudioBase64 s =
      match pyB64Decode (stripDataUrl s.data) with
      | none => .error .malformedBase64
      | some bytes =>
        if bytes.length % 2 = 0 then .ok (bytesToSamples bytes)
        else .error .invalidByteLength := rfl

lemma decodeAudioBase64_of_none (s : String)
    (h : pyB64Decode (stripDataUrl s.data) = none) :
    decodeAudioBase64 s = .error .malformedBase64 := by
  rw [decodeAudioBase64_eq, h]

lemma decodeAudioBase64_of_some (s : String) (bs : List ℕ)
    (h : pyB64Decode (stripDataUrl s.data) = some bs) :
    decodeAudioBase64 s =
      if bs.length % 2 = 0 then .ok (bytesToSamples bs)
      else .error .invalidByteLength := by
  rw [decodeAudioBase64_eq, h]

theorem c3_decode_error_characterization (s : String) :
    ((∃ buf, decodeAudioBase64 s = .ok buf) ∨ ∃ e, decodeAudioBase64 s = .error e) ∧
      ((∃ e, decodeAudioBase64 s = .error e) ↔
        pyB64Decode (stripDataUrl s.data) = none ∨
          ∃ bs, pyB64Decode (stripDataUrl s.data) = some bs ∧ bs.length % 2 = 1) := by
  cases h : pyB64Decode (stripDataUrl s.data) with
  | none =>
    rw [decodeAudioBase64_of_none s h]
    exact ⟨Or.inr ⟨.malformedBase64, rfl⟩, by simp⟩
  | some bs =>
    rw [decodeAudioBase64_of_some s bs h]
    by_cases hpar : bs.length % 2 = 0
    · rw [if_pos hpar]
      refine ⟨Or.inl ⟨bytesToSamples bs, rfl⟩, ?_⟩
      constructor
      · rintro ⟨e, he⟩
        exact absurd he (by simp)
      · rintro (hn | ⟨bs', hbs', hodd⟩)
        · simp at hn
        · obtain rfl : bs = bs' := by simpa using hbs'
          omega
    · rw [if_neg hpar]
      refine ⟨Or.inr ⟨.invalidByteLength, rfl⟩, ?_⟩
      constructor
      · intro _
        exact Or.inr ⟨bs, rfl, by omega⟩
      · intro _
        exact ⟨.invalidByteLength, rfl⟩

/-- C3 (witness): the characterization instantiated at the concrete data
URL `"data:;base64,QQ=="`. -/
theorem c3_witness :
    ((∃ buf, decodeAudioBase64 "data:;base64,QQ==" = .ok buf) ∨
      ∃ e, decodeAudioBase64 "data:;base64,QQ==" = .error e) ∧
      ((∃ e, decodeAudioBase64 "data:;base64,QQ==" = .error e) ↔
        pyB64Decode (stripDataUrl ("data:;base64,QQ==").data) = none ∨
          ∃ bs, pyB64Decode (stripDataUrl ("data:;base64,QQ==").data) = some bs ∧
            bs.length % 2 = 1) :=
  c3_decode_error_characterization "data:;base64,QQ=="

lemma normalizeAudio_def (xs : List ℝ) (t : ℝ) :
    normalizeAudio xs t =
      if 0 < calculateRms xs then xs.map fun x => clip (x * (t / calculateRms xs))
      else xs := rfl

lemma clip_of_abs_le {v : ℝ} (h : |v| ≤ 1) : clip v = v := by
  obtain ⟨h1, h2⟩ := abs_le.1 h
  rw [clip, min_eq_right h2, max_eq_right h1]

lemma clip_of_one_le {v : ℝ} (h : 1 ≤ v) : clip v = 1 := by
  rw [clip, min_eq_left h, max_eq_right (by norm_num)]

lemma sumSq_map_mul (xs : List ℝ) (g : ℝ) :
    ((xs.map fun x => x * g).map fun x => x ^ 2).sum =
      ((xs.map fun x => x ^ 2).sum) * g ^ 2 := by
  induction xs with
  | nil => simp
  | cons x rest ih =>
    simp only [List.map_cons, List.sum_cons, ih]
    ring

lemma calculateRms_map_mul (xs : List ℝ) (g : ℝ) (hg : 0 ≤ g) :
    calculateRms (xs.map fun x => x * g) = g * calculateRms xs := by
  unfold calculateRms
  rw [List.length_map, sumSq_map_mul,
    show ((xs.map fun x => x ^ 2).sum) * g ^ 2 / (xs.length : ℝ)
      = g ^ 2 * (((xs.map fun x => x ^ 2).sum) / (xs.length : ℝ)) by ring,
    Real.sqrt_mul (sq_nonneg g), Real.sqrt_sq hg]

/-- C4 (counterexample): idempotence of `normalize_audio` fails once
clipping occurs.  For the buffer `[4, 3, 0, …, 0]` (25 samples, RMS `1`)
the first pass clips sample `4·0.3 = 1.2` down to `1`, so the result has
RMS `√(181/2500) < 0.3`; the second pass therefore rescales again and
changes the second sample (`0.9` becomes `1`). -/
theorem c4_counterexample :
    normalizeAudio (normalizeAudio ((4 : ℝ) :: 3 :: List.replicate 23 0) (3/10)) (3/10) ≠
      normalizeAudio ((4 : ℝ) :: 3 :: List.replicate 23 0) (3/10) := by
  have hrms1 : calculateRms ((4 : ℝ) :: 3 :: List.replicate 23 0) = 1 := by
    unfold calculateRms
    norm_num [List.sum_replicate]
  have hy : normalizeAudio ((4 : ℝ) :: 3 :: List.replicate 23 0) (3/10)
      = (1 : ℝ) :: 9/10 :: List.replicate 23 0 := by
    rw [normalizeAudio_def, hrms1, if_pos one_pos]
    norm_num [clip, min_def, max_def, List.map_replicate]
  have hrms2 : calculateRms ((1 : ℝ) :: 9/10 :: List.replicate 23 0)
      = Real.sqrt (181/2500) := by
    unfold calculateRms
    norm_num [List.sum_replicate]
  have hs_pos : 0 < Real.sqrt (181/2500 : ℝ) := Real.sqrt_pos.2 (by norm_num)
  have hs_lt : Real.sqrt (181/2500 : ℝ) < 27/100 :=
    (Real.sqrt_lt' (by norm_num)).2 (by norm_num)
  intro heq
  rw [hy, normalizeAudio_def, hrms2, if_pos hs_pos] at heq
  simp only [List.map_cons, List.cons.injEq] at heq
  have hmid : clip ((9/10 : ℝ) * ((3/10) / Real.sqrt (181/2500))) = 9/10 := heq.2.1
  have hge : (1 : ℝ) ≤ (9/10 : ℝ) * ((3/10) / Real.sqrt (181/2500)) := by
    rw [show (9/10 : ℝ) * ((3/10) / Real.sqrt (181/2500))
        = (27/100) / Real.sqrt (181/2500) by ring]
    rw [le_div_iff₀ hs_pos, one_mul]
    exact le_of_lt hs_lt
  rw [clip_of_one_le hge] at hmid
  norm_num at hmid

/-- C4 (amended): `normalize_audio` is idempotent on every buffer of
positive RMS in which the first application clips no sample (every
`|x| * target/rms ≤ 1`); then the first pass is a pure rescale whose
result has RMS exactly `0.3`, and the second pass multiplies by `1` and
re-clips values already in `[-1, 1]`. -/
theorem c4_normalize_idempotent_no_clipping (xs : List ℝ)
    (hrms : 0 < calculateRms xs)
    (hnoclip : ∀ x ∈ xs, |x| * ((3/10) / calculateRms xs) ≤ 1) :
    normalizeAudio (normalizeAudio xs (3/10)) (3/10) = normalizeAudio xs (3/10) := by
  have hgpos : 0 < (3/10 : ℝ) / calculateRms xs := div_pos (by norm_num) hrms
  have habs : ∀ x ∈ xs, |x * ((3/10) / calculateRms xs)| ≤ 1 := by
    intro x hx
    rw [abs_mul, abs_of_pos hgpos]
    exact hnoclip x hx
  have hy : normalizeAudio xs (3/10) = xs.map fun x => x * ((3/10) / calculateRms xs) := by
    rw [normalizeAudio_def, if_pos hrms]
    exact List.map_congr_left fun x hx => clip_of_abs_le (habs x hx)
  have hrms2 : calculateRms (normalizeAudio xs (3/10)) = 3/10 := by
    rw [hy, calculateRms_map_mul xs _ (le_of_lt hgpos),
      div_mul_cancel₀ _ (ne_of_gt hrms)]
  rw [normalizeAudio_def (normalizeAudio xs (3/10)), hrms2,
    if_pos (by norm_num : (0:ℝ) < 3/10)]
  rw [hy, List.map_map]
  refine List.map_congr_left fun x hx => ?_
  show clip (x * ((3/10) / calculateRms xs) * ((3/10) / (3/10))) = x * ((3/10) / calculateRms xs)
  rw [show (3/10 : ℝ) / (3/10) = 1 by norm_num, mul_one]
  exact clip_of_abs_le (habs x hx)

/-- C4 (witness): the amended statement at the one-sample buffer `[0.3]`,
whose RMS is `0.3` and which the first pass leaves unchanged. -/
theorem c4_witness :
    0 < calculateRms [(3/10 : ℝ)] ∧
      normalizeAudio (normalizeAudio [(3/10 : ℝ)] (3/10)) (3/10) =
        normalizeAudio [(3/10 : ℝ)] (3/10) := by
  have hrms : calculateRms [(3/10 : ℝ)] = 3/10 := by
    unfold calculateRms
    rw [show ((([(3/10 : ℝ)]).map fun x => x ^ 2).sum / (([(3/10 : ℝ)]).length : ℝ))
        = (3/10 : ℝ) ^ 2 by norm_num]
    exact Real.sqrt_sq (by norm_num)
  have hpos : 0 < calculateRms [(3/10 : ℝ)] := by rw [hrms]; norm_num
  refine ⟨hpos, c4_normalize_idempotent_no_clipping [(3/10 : ℝ)] hpos ?_⟩
  intro x hx
  obtain rfl : x = (3/10 : ℝ) := by simpa using hx
  rw [hrms, show |(3/10 : ℝ)| = 3/10 from abs_of_nonneg (by norm_num)]
  norm_num

lemma numFramesAF_eq_natDiv (n sr : ℕ) :
    numFramesAF n sr = (n - frameSizeAF sr) / hopSizeAF sr := by
  unfold numFramesAF
  rcases le_or_lt (frameSizeAF sr) n with h | h
  · rw [show ((n : ℤ) - (frameSizeAF sr : ℤ)) = ((n - frameSizeAF sr : ℕ) : ℤ) by
      push_cast [h]; ring]
    rw [← Int.ofNat_fdiv]
    exact Int.toNat_natCast _
  · have hneg : ((n : ℤ) - (frameSizeAF sr : ℤ)) < 0 := by
      have : (n : ℤ) < (frameSizeAF sr : ℤ) := by exact_mod_cast h
      omega
    have hz : n - frameSizeAF sr = 0 := by omega
    rw [hz, Nat.zero_div]
    rcases Nat.eq_zero_or_pos (hopSizeAF sr) with hh | hh
    · rw [hh]
      simp
    · have : ((n : ℤ) - (frameSizeAF sr : ℤ)).fdiv (hopSizeAF sr) < 0 :=
        Int.fdiv_neg' hneg (by exact_mod_cast hh)
      omega

lemma lt_numFramesAF_contained (n sr i : ℕ) (hhop : 0 < hopSizeAF sr)
    (hi : i < numFramesAF n sr) :
    i * hopSizeAF sr + frameSizeAF sr ≤ n := by
  rw [numFramesAF_eq_natDiv] at hi
  have h1 : (i + 1) * hopSizeAF sr ≤ n - frameSizeAF sr :=
    (Nat.le_div_iff_mul_le hhop).1 hi
  rw [add_mul, one_mul] at h1
  generalize i * hopSizeAF sr = A at h1 ⊢
  omega

lemma analyzeAudioFeatures_get (xs : List ℝ) (sr : ℕ) (i : ℕ)
    (h : i < (analyzeAudioFeatures xs sr).length) :
    (analyzeAudioFeatures xs sr).get ⟨i, h⟩ =
      ⟨i, ((i * hopSizeAF sr : ℕ) : ℚ) / (sr : ℚ),
        classifyEnergy (calculateRms ((xs.drop (i * hopSizeAF sr)).take (frameSizeAF sr))),
        calculateRms ((xs.drop (i * hopSizeAF sr)).take (frameSizeAF sr)),
        phonemeToViseme (classifyEnergy
          (calculateRms ((xs.drop (i * hopSizeAF sr)).take (frameSizeAF sr))))⟩ := by
  simp [analyzeAudioFeatures, List.get_eq_getElem]

/-- C8 (counterexample): with `sample_rate = 100` the frame size is 3 and
the hop 1; on a 3-sample buffer the frame at index 0 is hop-aligned and
fully contained (`0*1 + 3 ≤ 3`), yet `analyze_audio_features` emits no
frame at all (`num_frames = (3-3)//1 = 0`): the code always drops the last
fully-contained frame, so the claim's "each fully-contained frame" fails. -/
theorem c8_counterexample :
    frameSizeAF 100 = 3 ∧ hopSizeAF 100 = 1 ∧
      0 * hopSizeAF 100 + frameSizeAF 100 ≤ ([(1/5 : ℝ), 1/5, 1/5]).length ∧
      analyzeAudioFeatures [(1/5 : ℝ), 1/5, 1/5] 100 = [] := by
  refine ⟨rfl, rfl, by simp [frameSizeAF, hopSizeAF], ?_⟩
  simp [analyzeAudioFeatures, numFramesAF, frameSizeAF, hopSizeAF]

/-- C8 (amended): for positive hop, the classifier emits exactly
`(len - frame_size) // hop` frames (one per hop-aligned frame strictly
before the last fully-contained one); emitted frame `i` is fully
contained, has timestamp `i*hop/sample_rate`, carries the RMS energy of
its window and the phoneme classified from that energy by the fixed
thresholds — in particular energy `0.03` classifies as `M` and `0.2` as
`AA`. -/
theorem c8_audio_classifier (xs : List ℝ) (sr : ℕ) (hhop : 0 < hopSizeAF sr) :
    (analyzeAudioFeatures xs sr).length = (xs.length - frameSizeAF sr) / hopSizeAF sr ∧
      (∀ i (h : i < (analyzeAudioFeatures xs sr).length),
        ((analyzeAudioFeatures xs sr).get ⟨i, h⟩).frame = i ∧
        ((analyzeAudioFeatures xs sr).get ⟨i, h⟩).time =
          ((i * hopSizeAF sr : ℕ) : ℚ) / (sr : ℚ) ∧
        ((analyzeAudioFeatures xs sr).get ⟨i, h⟩).energy =
          calculateRms ((xs.drop (i * hopSizeAF sr)).take (frameSizeAF sr)) ∧
        ((analyzeAudioFeatures xs sr).get ⟨i, h⟩).phoneme =
          classifyEnergy (((analyzeAudioFeatures xs sr).get ⟨i, h⟩).energy) ∧
        i * hopSizeAF sr + frameSizeAF sr ≤ xs.length) ∧
      classifyEnergy (3/100) = "M" ∧ classifyEnergy (1/5) = "AA" := by
  have hlen : (analyzeAudioFeatures xs sr).length = numFramesAF xs.length sr := by
    simp [analyzeAudioFeatures]
  refine ⟨by rw [hlen, numFramesAF_eq_natDiv], ?_, ?_, ?_⟩
  · intro i h
    have hi : i < numFramesAF xs.length sr := by rwa [hlen] at h
    rw [analyzeAudioFeatures_get]
    exact ⟨rfl, rfl, rfl, rfl, lt_numFramesAF_contained xs.length sr i hhop hi⟩
  · norm_num [classifyEnergy]
  · norm_num [classifyEnergy]

/-- C8 (witness): the amended statement at the empty buffer and
`sample_rate = 100` (positive hop), plus the two threshold facts. -/
theorem c8_witness :
    0 < hopSizeAF 100 ∧
      (analyzeAudioFeatures ([] : List ℝ) 100).length =
        (([] : List ℝ).length - frameSizeAF 100) / hopSizeAF 100 ∧
      classifyEnergy (3/100) = "M" ∧ classifyEnergy (1/5) = "AA" :=
  ⟨by decide, (c8_audio_classifier [] 100 (by decide)).1,
    (c8_audio_classifier [] 100 (by decide)).2.2⟩

lemma findRegions_invariant (n hop total : ℕ) (hhop : 0 < hop)
    (hbound : ∀ j, j < total → j * hop < n) :
    ∀ (bs : List Bool) (i : ℕ) (os : Option ℕ),
      i + bs.length = total →
      (∀ s, os = some s → ∃ a, a < i ∧ s = a * hop) →
      (∀ r ∈ findRegions n hop bs i os, r.1 < r.2 ∧ r.2 ≤ n) ∧
        (∀ r ∈ findRegions n hop bs i os,
          (os = none → i * hop ≤ r.1) ∧ (∀ s, os = some s → s ≤ r.1)) ∧
        List.Pairwise (fun r r' => r.2 ≤ r'.1) (findRegions n hop bs i os) := by
  intro bs
  induction bs with
  | nil =>
    intro i os htot hos
    cases os with
    | none => exact ⟨by simp [findRegions], by simp [findRegions], by simp [findRegions]⟩
    | some s =>
      obtain ⟨a, hai, rfl⟩ := hos s rfl
      have han : a * hop < n := hbound a (by omega)
      refine ⟨?_, ?_, ?_⟩
      · intro r hr
        obtain rfl : r = (a * hop, n) := by simpa [findRegions] using hr
        exact ⟨han, le_refl n⟩
      · intro r hr
        obtain rfl : r = (a * hop, n) := by simpa [findRegions] using hr
        exact ⟨fun hnone => by simp at hnone, fun s' hs' => by
          obtain rfl : a * hop = s' := by simpa using hs'
          exact le_refl _⟩
      · simp [findRegions]
  | cons b bs ih =>
    intro i os htot hos
    rw [List.length_cons] at htot
    cases os with
    | none =>
      by_cases hb : b = true
      · subst hb
        have hrw : findRegions n hop (true :: bs) i none
            = findRegions n hop bs (i + 1) (some (i * hop)) := by
          simp [findRegions]
        obtain ⟨ih1, ih2, ih3⟩ := ih (i + 1) (some (i * hop)) (by omega)
          (fun s hs => ⟨i, by omega, by simpa using hs.symm⟩)
        rw [hrw]
        refine ⟨ih1, ?_, ih3⟩
        intro r hr
        exact ⟨fun _ => (ih2 r hr).2 (i * hop) rfl, fun s' hs' => by simp at hs'⟩
      · rw [Bool.not_eq_true] at hb
        subst hb
        have hrw : findRegions n hop (false :: bs) i none
            = findRegions n hop bs (i + 1) none := by
          simp [findRegions]
        obtain ⟨ih1, ih2, ih3⟩ := ih (i + 1) none (by omega) (fun s hs => by simp at hs)
        rw [hrw]
        refine ⟨ih1, ?_, ih3⟩
        intro r hr
        refine ⟨fun _ => ?_, fun s' hs' => by simp at hs'⟩
        have h1 : (i + 1) * hop ≤ r.1 := (ih2 r hr).1 rfl
        have h2 : i * hop ≤ (i + 1) * hop := Nat.mul_le_mul_right hop (by omega)
        omega
    | some s =>
      obtain ⟨a, hai, rfl⟩ := hos s rfl
      by_cases hb : b = true
      · subst hb
        have hrw : findRegions n hop (true :: bs) i (some (a * hop))
            = findRegions n hop bs (i + 1) (some (a * hop)) := by
          simp [findRegions]
        obtain ⟨ih1, ih2, ih3⟩ := ih (i + 1) (some (a * hop)) (by omega)
          (fun s' hs' => ⟨a, by omega, by simpa using hs'.symm⟩)
        rw [hrw]
        refine ⟨ih1, ?_, ih3⟩
        intro r hr
        exact ⟨fun hnone => by simp at hnone, fun s' hs' => by
          obtain rfl : a * hop = s' := by simpa using hs'
          exact (ih2 r hr).2 (a * hop) rfl⟩
      · rw [Bool.not_eq_true] at hb
        subst hb
        have hrw : findRegions n hop (false :: bs) i (some (a * hop))
            = (a * hop, i * hop) :: findRegions n hop bs (i + 1) none := by
          simp [findRegions]
        obtain ⟨ih1, ih2, ih3⟩ := ih (i + 1) none (by omega) (fun s' hs' => by simp at hs')
        have hain : a * hop < i * hop := (Nat.mul_lt_mul_right hhop).2 hai
        have hin : i * hop < n := hbound i (by omega)
        have hnext : ∀ r ∈ findRegions n hop bs (i + 1) none, i * hop ≤ r.1 := by
          intro r hr
          have h1 : (i + 1) * hop ≤ r.1 := (ih2 r hr).1 rfl
          have h2 : i * hop ≤ (i + 1) * hop := Nat.mul_le_mul_right hop (by omega)
          omega
        rw [hrw]
        refine ⟨?_, ?_, ?_⟩
        · intro r hr
          rcases List.mem_cons.1 hr with rfl | hr
          · exact ⟨hain, le_of_lt hin⟩
          · exact ih1 r hr
        · intro r hr
          refine ⟨fun hnone => by simp at hnone, fun s' hs' => ?_⟩
          obtain rfl : a * hop = s' := by simpa using hs'
          rcases List.mem_cons.1 hr with rfl | hr
          · exact le_refl _
          · exact le_trans (le_of_lt hain) (hnext r hr)
        · refine List.pairwise_cons.2 ⟨?_, ih3⟩
          intro r hr
          exact hnext r hr

lemma vadIsVoice_length (xs : List ℝ) (threshold : ℝ) (fs hop : ℕ) :
    (vadIsVoice xs threshold fs hop).length = vadCount xs.length fs hop := by
  simp [vadIsVoice]

lemma vadCount_bound (n fs hop j : ℕ) (hhop : 0 < hop)
    (hj : j < vadCount n fs hop) : j * hop < n := by
  unfold vadCount at hj
  have h0 : j + 1 ≤ (n - fs + hop - 1) / hop := hj
  have h1 : (j + 1) * hop ≤ n - fs + hop - 1 := (Nat.le_div_iff_mul_le hhop).1 h0
  rw [add_mul, one_mul] at h1
  generalize j * hop = A at h1 ⊢
  omega

/-- C10 (confirmed): whenever the VAD frame size is at least 2 (so the hop
is positive), every region returned by `detect_voice_activity` is a
well-formed half-open interval into the buffer (`start < end ≤ len`), and
the regions are emitted in order, pairwise disjoint: each region's end is
at most the next region's start. -/
theorem c10_vad_regions (xs : List ℝ) (threshold : ℝ) (sr : ℕ)
    (hfs : 2 ≤ frameSizeVad sr) :
    (∀ r ∈ detectVoiceActivity xs threshold sr, r.1 < r.2 ∧ r.2 ≤ xs.length) ∧
      List.Pairwise (fun r r' => r.2 ≤ r'.1) (detectVoiceActivity xs threshold sr) := by
  have hhop : 0 < hopSizeVad sr := by
    unfold hopSizeVad
    omega
  have h := findRegions_invariant xs.length (hopSizeVad sr)
    (vadCount xs.length (frameSizeVad sr) (hopSizeVad sr)) hhop
    (fun j hj => vadCount_bound xs.length (frameSizeVad sr) (hopSizeVad sr) j hhop hj)
    (vadIsVoice xs threshold (frameSizeVad sr) (hopSizeVad sr)) 0 none
    (by rw [vadIsVoice_length]; omega)
    (fun s hs => by simp at hs)
  exact ⟨h.1, h.2.2⟩

/-- C10 (witness): the invariants at the one-sample buffer `[0]` with the
default threshold `0.02` and `sample_rate = 100` (frame size 2). -/
theorem c10_witness :
    2 ≤ frameSizeVad 100 ∧
      ∀ r ∈ detectVoiceActivity [(0 : ℝ)] (2/100) 100, r.1 < r.2 ∧ r.2 ≤ 1 :=
  ⟨by decide, fun r hr => by
    simpa using (c10_vad_regions [(0 : ℝ)] (2/100) 100 (by decide)).1 r hr⟩

end VoiceFace
